import Mathlib

/-!
A verification development for the retrieval core of the RagChatbot
repository (`app/core/rag_engine.py`).  Python strings are modelled as
`List Char`, Python floats (the distances handled by the engine) as `ℚ`,
and the external vector-store search as a function parameter returning
`Except Unit SearchResults` (an exception raised by the collaborator is
the `.error` case).  `hash(doc[:100])` is modelled by the 100-character
prefix itself; the spec describes the hash as a content-prefix key and
collisions are outside the model.
-/

namespace Rag

/-- Python strings, modelled as lists of characters. -/
abbrev Str := List Char

/-- Shorthand turning a Lean string literal into the `Str` model. -/
def lit (s : String) : Str := s.data

/-- The characters stripped by Python `str.strip()` / split on by
`str.split()` (ASCII whitespace). -/
def pyIsSpace (c : Char) : Bool :=
  c = ' ' ∨ c = '\t' ∨ c = '\n' ∨ c = '\r' ∨ c = '\x0b' ∨ c = '\x0c'

/-- Python `str.strip()`. -/
def pyStrip (s : Str) : Str :=
  ((s.dropWhile pyIsSpace).reverse.dropWhile pyIsSpace).reverse

/-- Python `str.lower()` (ASCII range, as exercised by the engine). -/
def pyLower (s : Str) : Str := s.map Char.toLower

/-- Helper for `pySplit`: accumulates the current token (reversed). -/
def pySplitAux : Str → Str → List Str
  | [], tok => if tok = [] then [] else [tok.reverse]
  | c :: rest, tok =>
    if pyIsSpace c then
      if tok = [] then pySplitAux rest [] else tok.reverse :: pySplitAux rest []
    else pySplitAux rest (c :: tok)

/-- Python `str.split()` with no arguments: split on whitespace runs,
dropping empty tokens. -/
def pySplit (s : Str) : List Str := pySplitAux s []

/-- Python `sep.join(parts)`. -/
def joinSep (sep : Str) : List Str → Str
  | [] => []
  | [x] => x
  | x :: y :: xs => x ++ sep ++ joinSep sep (y :: xs)

/-- Python `s.replace(old, new)`: leftmost, non-overlapping, replaces all
occurrences.  (The engine only ever calls it with a non-empty `old`, which
the guard reflects.) -/
def pyReplace (old new : Str) : Str → Str
  | [] => []
  | c :: rest =>
    if h : 0 < old.length ∧ old.isPrefixOf (c :: rest) = true then
      new ++ pyReplace old new ((c :: rest).drop old.length)
    else
      c :: pyReplace old new rest
termination_by s => s.length
decreasing_by
  · simp only [List.length_drop, List.length_cons]
    omega
  · simp

/-- Python regex `\w` on the ASCII range. -/
def isWordChar (c : Char) : Bool := c.isAlphanum ∨ c = '_'

/-- The apostrophe character, written via its code point. -/
def apos : Char := Char.ofNat 39

/-- The two-character string apostrophe-then-s. -/
def apostropheS : Str := [apos, 's']

/-- Python substring containment `needle in hay`. -/
def strIn (needle hay : Str) : Bool := decide (needle <:+: hay)

/-- A word boundary holds between the end of a word and this remainder of
the string (i.e. the remainder starts with a non-word character or is
empty). -/
def boundaryAfter : Str → Bool
  | [] => true
  | c :: _ => ¬ isWordChar c

/-- Python `re.sub(r"'s\b", "", s)`: removes every `'s` that is followed
by a word boundary, scanning left to right, non-overlapping. -/
def subPossessive : Str → Str
  | [] => []
  | [c] => [c]
  | c :: d :: rest2 =>
    if c == apos && d == 's' && boundaryAfter rest2 then subPossessive rest2
    else c :: subPossessive (d :: rest2)

/-- The question-word alternatives of the contextual-variation regex, in
the alternation order of the pattern. -/
def qwords : List Str := [lit "what", lit "where", lit "when", lit "who", lit "how"]

/-- At the head of `s` (already known to sit at a word boundary), find the
first question-word alternative that matches and is followed by a word
boundary. -/
def findQ (s : Str) : Option Str :=
  qwords.find? (fun w => w.isPrefixOf s && boundaryAfter (s.drop w.length))

theorem findQ_some_bounds {s w : Str} (h : findQ s = some w) :
    0 < w.length ∧ w.length ≤ s.length := by
  have hm := List.mem_of_find?_eq_some h
  have hp := List.find?_some h
  have hpre : w.isPrefixOf s = true := by
    have := Bool.and_elim_left hp
    exact this
  have hle : w.length ≤ s.length :=
    List.IsPrefix.length_le (List.isPrefixOf_iff_prefix.mp hpre)
  refine ⟨?_, hle⟩
  simp only [qwords, List.mem_cons, List.not_mem_nil, or_false] at hm
  rcases hm with rfl | rfl | rfl | rfl | rfl <;> decide

/-- Python `re.sub(r'\b(what|where|when|who|how)\b.*?(is|are|was|were|did)?\s*', '', s)`.
Because `.*?` is lazy and everything after it can match the empty string,
while the optional verb group can never match at the word boundary that
must follow the question word, each match consists of exactly a
standalone question word plus the following whitespace run (`\s*`).
`prevW` records whether the previous character of the original string is
a word character (for the leading `\b`). -/
def subQuestionAux (prevW : Bool) (s : Str) : Str :=
  match s with
  | [] => []
  | c :: rest =>
    match h : (if prevW then none else findQ (c :: rest)) with
    | some w =>
      let rest2 := (c :: rest).drop w.length
      subQuestionAux (rest2.takeWhile pyIsSpace).isEmpty (rest2.dropWhile pyIsSpace)
    | none => c :: subQuestionAux (isWordChar c) rest
termination_by s.length
decreasing_by
  · have hw : findQ (c :: rest) = some w := by
      by_cases hp : prevW
      · simp [hp] at h
      · simpa [hp] using h
    have hb := findQ_some_bounds hw
    have h1 : (List.dropWhile pyIsSpace ((c :: rest).drop w.length)).length ≤
        ((c :: rest).drop w.length).length := by
      exact List.Sublist.length_le (List.dropWhile_sublist _)
    simp only [List.length_drop, List.length_cons] at h1 ⊢
    omega
  · simp

/-- The question-word-stripping substitution applied by
`_generate_contextual_variations`. -/
def subQuestion (s : Str) : Str := subQuestionAux false s

/-- Python `zip(xs, ys, zs)` (truncates to the shortest). -/
def zip3 {α β γ : Type} : List α → List β → List γ → List (α × β × γ)
  | a :: as, b :: bs, c :: cs => (a, b, c) :: zip3 as bs cs
  | _, _, _ => []

/-- Python `min(a, b)` on floats: the first argument when the two are
tied. -/
def pyMin (a b : ℚ) : ℚ := if a ≤ b then a else b

theorem pyMin_eq_min (a b : ℚ) : pyMin a b = min a b := by
  rw [min_def]
  rfl

/-- Python `min` over a list of floats (the empty case is never reached by
the engine, which guards on non-emptiness). -/
def listMin : List ℚ → ℚ
  | [] => 0
  | x :: xs => xs.foldl pyMin x

/-! ## Data model (`rag_engine.py`) -/

/-- One retrieved document as the engine stores it: the dict
`{"content": ..., "metadata": ..., "distance": ..., "query": ...}`. -/
structure SearchHit where
  content : Str
  metadata : List (Str × Str)
  distance : ℚ
  query : Str
deriving DecidableEq, Repr

/-- The dict returned by `vector_store.search`: three parallel lists. -/
structure SearchResults where
  documents : List Str
  metadatas : List (List (Str × Str))
  distances : List ℚ
deriving DecidableEq, Repr

/-- The external search collaborator, as seen by the engine: it may raise
(the `.error` case, caught by the engine) or return a result dict. -/
abbrev Search := Str → Nat → Except Unit SearchResults

/-- One entry of the `search_rounds` list in `retrieve_context`. -/
structure RoundConfig where
  queries : List Str
  n_results : Nat
  strict : Bool
deriving DecidableEq, Repr

/-- The dict returned by `retrieve_context`. -/
structure RetrievalResult where
  context : Str
  sources : List Str
  num_docs : Nat
  best_distance : ℚ
  search_strategy : Str
deriving DecidableEq, Repr

/-- `doc["metadata"].get("source", "unknown")`. -/
def getSource (md : List (Str × Str)) : Str :=
  (md.lookup (lit "source")).getD (lit "unknown")

/-! ## Query expansion (`_generate_comprehensive_queries` and helpers) -/

/-- The hard-coded synonym table of `_generate_linguistic_variations`
(insertion order preserved, as Python dict iteration does). -/
def substitutions : List (Str × List Str) :=
  [(lit "education", [lit "degree", lit "qualification", lit "academic", lit "study"]),
   (lit "experience", [lit "work", lit "job", lit "employment", lit "career"]),
   (lit "skill", [lit "ability", lit "expertise", lit "competency", lit "knowledge"]),
   (lit "project", [lit "work", lit "development", lit "application", lit "system"]),
   (lit "university", [lit "college", lit "school", lit "institution", lit "academy"]),
   (lit "degree", [lit "qualification", lit "education", lit "diploma", lit "certificate"])]

/-- `_generate_linguistic_variations`. -/
def generate_linguistic_variations (query : Str) : List Str :=
  let words := pySplit query
  let plurals := words.enum.filterMap fun p =>
    let w := p.2
    if w.length > 3 then
      if (lit "s").isSuffixOf w then
        if (lit "ss").isSuffixOf w then none
        else some (joinSep (lit " ") (words.set p.1 w.dropLast))
      else some (joinSep (lit " ") (words.set p.1 (w ++ lit "s")))
    else none
  let subs := substitutions.foldl (fun acc kv =>
    if strIn kv.1 (pyLower query) then
      acc ++ kv.2.map (fun r => pyReplace kv.1 r (pyLower query))
    else acc) []
  plurals ++ subs

/-- The hard-coded cluster table of `_generate_semantic_expansions`. -/
def semanticClusters : List (Str × List Str) :=
  [(lit "academic", [lit "education", lit "degree", lit "university", lit "college",
     lit "study", lit "qualification", lit "academic", lit "learning"]),
   (lit "work", [lit "experience", lit "job", lit "work", lit "employment",
     lit "career", lit "position", lit "role"]),
   (lit "technical", [lit "skill", lit "technology", lit "programming",
     lit "development", lit "technical", lit "expertise"]),
   (lit "personal", [lit "name", lit "contact", lit "personal", lit "information",
     lit "details", lit "profile"]),
   (lit "achievement", [lit "project", lit "achievement", lit "accomplishment",
     lit "success", lit "award", lit "certification"])]

/-- `_generate_semantic_expansions` (argument is the lowercased, stripped
query). -/
def generate_semantic_expansions (ql : Str) : List Str :=
  let words := pySplit ql
  semanticClusters.foldl (fun acc kv =>
    if kv.2.any (fun w => w ∈ words) then
      acc ++ kv.2.foldl (fun acc2 w =>
        if ¬ strIn w ql then
          acc2 ++ [ql ++ lit " " ++ w, w ++ lit " " ++ ql]
        else acc2) []
    else acc) []

/-- `_generate_contextual_variations` (argument is the lowercased,
stripped query). -/
def generate_contextual_variations (ql : Str) : List Str :=
  let part1 :=
    if qwords.any (fun q => strIn q ql) then
      let base := pyStrip (subQuestion ql)
      if base ≠ [] then
        [base, lit "information about " ++ base, lit "details of " ++ base,
         lit "tell me about " ++ base]
      else []
    else []
  let part2 :=
    if strIn apostropheS ql ∨ strIn (lit "of") ql then
      let cleaned := subPossessive ql
      let words := pySplit cleaned
      [cleaned] ++
        (if words.length ≥ 2 then
          [words.getLastD [] ++ lit " " ++ joinSep (lit " ") words.dropLast]
        else [])
    else []
  part1 ++ part2

/-- The stopword list of `_generate_structural_variations`. -/
def structuralStopwords : List Str :=
  [lit "the", lit "and", lit "or", lit "but", lit "with", lit "from", lit "about"]

/-- `_generate_structural_variations`. -/
def generate_structural_variations (query : Str) : List Str :=
  let words := pySplit query
  if words.length ≥ 2 then
    let important := words.filter (fun w => w.length > 3 ∧ ¬ pyLower w ∈ structuralStopwords)
    [joinSep (lit " ") words.reverse] ++
      (if important ≠ [] then [joinSep (lit " ") important] else [])
  else []

/-- The final dedup-and-filter loop of `_generate_comprehensive_queries`:
keeps `q.strip()` when `q.strip()` is non-empty, `q.lower()` was not seen
before, and `len(q.strip()) > 1`; the seen-set records `q.lower()`. -/
def dedupQueriesStep (acc : List Str × List Str) (q : Str) : List Str × List Str :=
  if pyStrip q ≠ [] ∧ ¬ pyLower q ∈ acc.2 ∧ (pyStrip q).length > 1 then
    (acc.1 ++ [pyStrip q], acc.2 ++ [pyLower q])
  else acc

/-- The `(unique_queries, seen)` pair after the dedup-and-filter loop of
`_generate_comprehensive_queries` has run over all generated variants. -/
def comprehensiveState (query : Str) : List Str × List Str :=
  let ql := pyStrip (pyLower query)
  let queries := [pyStrip query]
    ++ generate_linguistic_variations query
    ++ generate_semantic_expansions ql
    ++ generate_contextual_variations ql
    ++ generate_structural_variations query
  queries.foldl dedupQueriesStep ([], [])

/-- `_generate_comprehensive_queries`. -/
def generate_comprehensive_queries (query : Str) : List Str :=
  (comprehensiveState query).1.take 12

/-! ## Search round executor (`_execute_search_round`) -/

/-- The per-query acceptance threshold: adaptive when the round is strict
and the query returned at least one distance, a fixed lenient `2.0`
otherwise. -/
def roundThreshold (strict : Bool) (dists : List ℚ) : ℚ :=
  if strict = true ∧ dists ≠ [] then pyMin 1 (listMin dists * 2) else 2

/-- Key under which a document is deduplicated within a round:
`hash(doc[:100])`, modelled by the prefix itself. -/
def hash100 (doc : Str) : Str := doc.take 100

/-- The body of the `for doc, metadata, distance in zip(...)` loop: accept
the candidate when its prefix key is unseen and its distance is within the
threshold.  The state is `(round_docs, seen_hashes)`. -/
def roundStep (threshold : ℚ) (q : Str) (acc : List SearchHit × List Str)
    (t : Str × List (Str × Str) × ℚ) : List SearchHit × List Str :=
  if ¬ hash100 t.1 ∈ acc.2 ∧ t.2.2 ≤ threshold then
    (acc.1 ++ [⟨t.1, t.2.1, t.2.2, q⟩], acc.2 ++ [hash100 t.1])
  else acc

/-- One iteration of the `for query in config["queries"]` loop: a raising
search is caught and skipped, an empty document list is skipped, otherwise
the round threshold is computed and the candidates folded in. -/
def execRoundQuery (search : Search) (cfg : RoundConfig)
    (acc : List SearchHit × List Str) (q : Str) : List SearchHit × List Str :=
  match search q cfg.n_results with
  | .error _ => acc
  | .ok res =>
    if res.documents = [] then acc
    else
      (zip3 res.documents res.metadatas res.distances).foldl
        (roundStep (roundThreshold cfg.strict res.distances) q) acc

/-- `_execute_search_round`. -/
def execute_search_round (search : Search) (cfg : RoundConfig) : List SearchHit :=
  (cfg.queries.foldl (execRoundQuery search cfg) ([], [])).1

/-! ## Fallback searcher (`_desperate_fallback_search`) -/

/-- `_desperate_fallback_search`: one wide search for the original query;
the top `max_results` hits are accepted unconditionally; a raising search
yields the empty list. -/
def desperate_fallback_search (search : Search) (query : Str) (max_results : Nat) :
    List SearchHit :=
  match search query (max_results * 4) with
  | .error _ => []
  | .ok res =>
    (zip3 (res.documents.take max_results) (res.metadatas.take max_results)
      (res.distances.take max_results)).map
      (fun t => ⟨t.1, t.2.1, t.2.2, query⟩)

/-! ## Ranker / deduplicator (`_deduplicate_and_rank`) -/

/-- Key for cross-round deduplication: the first 200 characters of the
content. -/
def key200 (d : SearchHit) : Str := d.content.take 200

/-- The body of the `for doc in docs` dedup loop, state
`(unique_docs, seen_content)`. -/
def dedupStep (acc : List SearchHit × List Str) (d : SearchHit) :
    List SearchHit × List Str :=
  if key200 d ∈ acc.2 then acc else (acc.1 ++ [d], acc.2 ++ [key200 d])

/-- Step 1 of `_deduplicate_and_rank`: remove cross-round duplicates by
first-200-character content key, first occurrence kept. -/
def dedup200 (docs : List SearchHit) : List SearchHit :=
  (docs.foldl dedupStep ([], [])).1

/-- The comparison used by `unique_docs.sort(key=lambda x: x["distance"])`. -/
def distLE (a b : SearchHit) : Prop := a.distance ≤ b.distance

instance : DecidableRel distLE :=
  fun a b => inferInstanceAs (Decidable (a.distance ≤ b.distance))

instance : IsTotal SearchHit distLE := ⟨fun a b => le_total a.distance b.distance⟩

instance : IsTrans SearchHit distLE := ⟨fun _ _ _ h1 h2 => le_trans h1 h2⟩

/-- Step 2 of `_deduplicate_and_rank`: stable sort ascending by distance.
Python `list.sort` is a stable sort; it is modelled by stable insertion
sort (all stable sorts of the same sequence under the same key agree). -/
def sortByDistance (docs : List SearchHit) : List SearchHit :=
  docs.insertionSort distLE

/-- Step 3 of `_deduplicate_and_rank`: the adaptive quality threshold
derived from the best (smallest) distance. -/
def qualityThreshold (best : ℚ) : ℚ :=
  if best < 1/2 then 1 else if best < 1 then 3/2 else 2

/-- `_deduplicate_and_rank`. -/
def deduplicate_and_rank (docs : List SearchHit) : List SearchHit :=
  if docs = [] then []
  else
    let sorted := sortByDistance (dedup200 docs)
    match sorted with
    | [] => []
    | best :: _ =>
      let quality := sorted.filter (fun d => decide (d.distance ≤ qualityThreshold best.distance))
      let quality2 :=
        if quality.length < 2 ∧ 2 ≤ sorted.length then sorted.take 5 else quality
      quality2.take 8

/-! ## Context assembler (`_build_context`) -/

/-- The `for doc in docs` loop of `_build_context`, carrying
`(context_parts, sources, total_length)`.  The budget `maxLen` models
`settings.MAX_CONTEXT_LENGTH` (configurable via the environment).  The
`break` statements are modelled by returning without recursing. -/
def buildLoop (maxLen : Nat) : List SearchHit → Nat → List Str → List Str →
    List Str × List Str
  | [], _, parts, sources => (parts, sources)
  | d :: rest, total, parts, sources =>
    let content := pyStrip d.content
    if content = [] then buildLoop maxLen rest total parts sources
    else if total + content.length ≤ maxLen then
      let s := getSource d.metadata
      buildLoop maxLen rest (total + content.length) (parts ++ [content])
        (if s ∈ sources then sources else sources ++ [s])
    else
      let remaining := maxLen - total
      if remaining > 100 then
        (parts ++ [content.take (remaining - 3) ++ lit "..."], sources)
      else (parts, sources)

/-- The `(context_parts, sources)` pair accumulated by `_build_context`. -/
def buildParts (maxLen : Nat) (docs : List SearchHit) : List Str × List Str :=
  buildLoop maxLen docs 0 [] []

/-- `_build_context`: the accepted entries joined by a blank line, and the
sources list. -/
def build_context (maxLen : Nat) (docs : List SearchHit) : Str × List Str :=
  if docs = [] then ([], [])
  else
    let ps := buildParts maxLen docs
    (joinSep (lit "\n\n") ps.1, ps.2)

/-! ## Retrieval orchestrator (`retrieve_context` and `chat`) -/

/-- The `search_rounds` list of `retrieve_context`. -/
def searchRounds (query : Str) (all_queries : List Str) (max_results : Nat) :
    List RoundConfig :=
  [⟨all_queries.take 3, max_results, true⟩,
   ⟨(all_queries.drop 3).take 3, max_results * 2, false⟩,
   ⟨[query], max_results * 3, false⟩]

/-- The `for round_config in search_rounds` loop with its early
termination once at least 5 hits are accumulated and one of them has
distance below `0.6`. -/
def roundsLoop (search : Search) : List RoundConfig → List SearchHit → List SearchHit
  | [], acc => acc
  | cfg :: rest, acc =>
    let acc2 := acc ++ execute_search_round search cfg
    if 5 ≤ acc2.length ∧ acc2.any (fun d => decide (d.distance < 3/5)) then acc2
    else roundsLoop search rest acc2

/-- All hits accumulated over the (up to three) search rounds. -/
def allDocs (search : Search) (query : Str) (max_results : Nat) : List SearchHit :=
  roundsLoop search (searchRounds query (generate_comprehensive_queries query) max_results) []

/-- The documents handed to the context assembler: the ranked merge of all
rounds, or the desperate fallback when that is empty. -/
def finalDocs (search : Search) (query : Str) (max_results : Nat) : List SearchHit :=
  let ranked := deduplicate_and_rank (allDocs search query max_results)
  if ranked = [] then desperate_fallback_search search query max_results else ranked

/-- `retrieve_context` (the `try` body; nothing in the model raises, the
search collaborator's failures being absorbed by the round executor and
the fallback searcher). -/
def retrieve_context (search : Search) (maxLen : Nat) (query : Str)
    (max_results : Nat) : RetrievalResult :=
  let fd := finalDocs search query max_results
  let cs := build_context maxLen fd
  { context := cs.1
    sources := cs.2
    num_docs := fd.length
    best_distance := match fd with | [] => 1 | d :: _ => d.distance
    search_strategy := lit "multi-strategy-enhanced" }

/-- The `context_quality` field computed by `chat` from
`context_info["best_distance"]`. -/
def context_quality (best : ℚ) : Str :=
  if best < 3/5 then lit "high" else if best < 1 then lit "medium" else lit "low"

/-! ## Spec-side definitions (stated from the specification's wording, to
be compared against the embedded code) -/

/-- The canonical empty result of the spec's produced contract (without
the `quality_label`, which in the code lives on the `chat` side). -/
def canonicalEmptyResult : RetrievalResult :=
  { context := [], sources := [], num_docs := 0, best_distance := 1,
    search_strategy := lit "multi-strategy-enhanced" }

/-- Spec-side cross-round deduplication: walk the sequence, keep the first
occurrence of each first-200-character content key. -/
def dedupByKeySpec : List SearchHit → List Str → List SearchHit
  | [], _ => []
  | d :: rest, seen =>
    if key200 d ∈ seen then dedupByKeySpec rest seen
    else d :: dedupByKeySpec rest (seen ++ [key200 d])

/-- Spec-side ranker, following the claim's wording: dedup keeping first
occurrences, stable sort ascending by distance, admit hits within the
adaptive threshold, fall back to the top 5 whenever fewer than 2 pass and
at least 2 unique hits exist, return at most 8. -/
def rank_spec (docs : List SearchHit) : List SearchHit :=
  let survivors := sortByDistance (dedupByKeySpec docs [])
  match survivors with
  | [] => []
  | b :: _ =>
    let admitted := survivors.filter (fun d => decide (d.distance ≤ qualityThreshold b.distance))
    (if admitted.length < 2 ∧ 2 ≤ survivors.length then survivors.take 5
     else admitted).take 8

/-- Spec-side list of the documents whose content is folded into the
context in full (whitespace-only documents are skipped; the walk stops at
the first document that no longer fits, whether or not a truncated slice
of it is appended). -/
def fullyIncluded (maxLen : Nat) : List SearchHit → Nat → List SearchHit
  | [], _ => []
  | d :: rest, total =>
    let content := pyStrip d.content
    if content = [] then fullyIncluded maxLen rest total
    else if total + content.length ≤ maxLen then
      d :: fullyIncluded maxLen rest (total + content.length)
    else []

/-- Insertion-ordered deduplicating append of a list of source names. -/
def dedupAppend (acc : List Str) : List Str → List Str
  | [] => acc
  | s :: rest => dedupAppend (if s ∈ acc then acc else acc ++ [s]) rest

/-- Total character count of a list of context parts. -/
def sumLens (parts : List Str) : Nat := (parts.map List.length).sum

/-! ## Helper lemmas -/

theorem sumLens_append (xs ys : List Str) :
    sumLens (xs ++ ys) = sumLens xs + sumLens ys := by
  simp [sumLens]

theorem joinSep_length (sep : Str) :
    ∀ parts : List Str,
      (joinSep sep parts).length = sumLens parts + sep.length * (parts.length - 1)
  | [] => by simp [joinSep, sumLens]
  | [x] => by simp [joinSep, sumLens]
  | x :: y :: ys => by
    have ih := joinSep_length sep (y :: ys)
    simp only [joinSep, List.length_append, List.length_cons, sumLens, List.map_cons,
      List.sum_cons, Nat.add_sub_cancel, Nat.mul_succ] at ih ⊢
    omega

/-- Invariant of the `_build_context` loop: the character budget bounds
the total length of the accepted entries, at most one entry is added per
document, and the sources list stays duplicate-free. -/
theorem buildLoop_spec (maxLen : Nat) :
    ∀ (docs : List SearchHit) (total : Nat) (parts sources : List Str),
      total = sumLens parts → total ≤ maxLen → sources.Nodup →
      sumLens (buildLoop maxLen docs total parts sources).1 ≤ maxLen ∧
      (buildLoop maxLen docs total parts sources).1.length ≤ parts.length + docs.length ∧
      (buildLoop maxLen docs total parts sources).2.Nodup
  | [], total, parts, sources => by
    intro h1 h2 h3
    simpa [buildLoop, ← h1] using ⟨h2, h3⟩
  | d :: rest, total, parts, sources => by
    intro h1 h2 h3
    simp only [buildLoop]
    split
    · have := buildLoop_spec maxLen rest total parts sources h1 h2 h3
      simp only [List.length_cons]
      exact ⟨this.1, by omega, this.2.2⟩
    · split
      · rename_i hfit
        have hsrc : (if getSource d.metadata ∈ sources then sources
            else sources ++ [getSource d.metadata]).Nodup := by
          split
          · exact h3
          · rename_i hmem
            simp [List.nodup_append, h3, hmem]
        have := buildLoop_spec maxLen rest (total + (pyStrip d.content).length)
          (parts ++ [pyStrip d.content]) _
          (by simp [sumLens_append, sumLens, h1]) hfit hsrc
        simp only [List.length_append, List.length_cons, List.length_nil] at this ⊢
        exact ⟨this.1, by omega, this.2.2⟩
      · split
        · rename_i hbig
          have hdots : (lit "...").length = 3 := by decide
          have hlen : ((pyStrip d.content).take (maxLen - total - 3)).length ≤
              maxLen - total - 3 := by
            rw [List.length_take]
            exact Nat.min_le_left _ _
          constructor
          · rw [sumLens_append]
            simp only [sumLens] at h1
            simp only [sumLens, List.map_cons, List.map_nil, List.sum_cons, List.sum_nil,
              List.length_append, hdots]
            omega
          · simp only [List.length_append, List.length_cons, List.length_nil]
            exact ⟨by omega, h3⟩
        · exact ⟨by simpa [← h1] using h2, by simp, h3⟩

/-! ## C1 -/

/-- Two two-character documents under a configured maximum of 4. -/
def c1hits : List SearchHit :=
  [⟨lit "ab", [(lit "source", lit "a.txt")], 1/10, lit "q"⟩,
   ⟨lit "cd", [(lit "source", lit "b.txt")], 1/5, lit "q"⟩]

/-- C1, counterexample: the blank-line separators are not counted against
the budget, so with a configured maximum of 4 two accepted two-character
entries yield a context of length 6 > 4. -/
theorem build_context_length_exceeds_max :
    (build_context 4 c1hits).1.length = 6 ∧
    ¬ ((build_context 4 c1hits).1.length ≤ 4) := by
  decide

/-- C1, amended: for every sequence of hits and every configured maximum,
the total length of the accepted entries (excluding the blank-line
separators) is at most the maximum — so the full context string is at most
the maximum plus two characters per separator — and the sources list
contains no duplicate entries. -/
theorem build_context_length_bound (maxLen : Nat) (docs : List SearchHit) :
    sumLens (buildParts maxLen docs).1 ≤ maxLen ∧
    (build_context maxLen docs).1.length ≤ maxLen + 2 * docs.length ∧
    (build_context maxLen docs).2.Nodup := by
  have h := buildLoop_spec maxLen docs 0 [] [] (by simp [sumLens]) (by simp) (by simp)
  have hparts : buildParts maxLen docs = buildLoop maxLen docs 0 [] [] := rfl
  refine ⟨by rw [hparts]; exact h.1, ?_, ?_⟩
  · unfold build_context
    split
    · simp
    · rw [joinSep_length]
      have h2 := h.2.1
      simp only [List.length_nil, Nat.zero_add] at h2
      have : (lit "\n\n").length = 2 := by decide
      rw [this]
      have := h.1
      rw [hparts]
      omega
  · unfold build_context
    split
    · simp
    · exact h.2.2

/-! ## C2 -/

/-- A search collaborator over an empty index: every query succeeds with
no results. -/
def emptySearch : Search := fun _ _ => .ok ⟨[], [], []⟩

/-- C2, amended: the pipeline always returns exactly one
`RetrievalResult` (it is a total function of the search collaborator);
when the whole pipeline including fallback yields nothing the result is
`{context: "", sources: [], doc_count: 0, best_distance: 1.0}` and the
quality label computed by `chat` for it is `"low"` — not `"none"`, which
the code only produces when the `chat` wrapper itself fails; otherwise
the label is `"high"` iff best_distance < 0.6 and `"medium"` iff
0.6 ≤ best_distance < 1.0, else `"low"`. -/
theorem retrieve_context_empty_pipeline (search : Search) (maxLen : Nat) (query : Str)
    (max_results : Nat) (h : finalDocs search query max_results = []) :
    retrieve_context search maxLen query max_results = canonicalEmptyResult ∧
    context_quality (retrieve_context search maxLen query max_results).best_distance
      = lit "low" ∧
    (∀ b : ℚ, context_quality b = lit "high" ↔ b < 3/5) ∧
    (∀ b : ℚ, context_quality b = lit "medium" ↔ ¬ b < 3/5 ∧ b < 1) ∧
    (∀ b : ℚ, context_quality b = lit "low" ↔ ¬ b < 3/5 ∧ ¬ b < 1) := by
  have hq : ∀ b : ℚ, context_quality b = lit "high" ↔ b < 3/5 := by
    intro b
    unfold context_quality
    split_ifs with h1 h2
    · exact ⟨fun _ => h1, fun _ => rfl⟩
    · exact ⟨fun hc => absurd hc (by decide), fun hb => absurd hb h1⟩
    · exact ⟨fun hc => absurd hc (by decide), fun hb => absurd hb h1⟩
  have hm : ∀ b : ℚ, context_quality b = lit "medium" ↔ ¬ b < 3/5 ∧ b < 1 := by
    intro b
    unfold context_quality
    split_ifs with h1 h2
    · exact ⟨fun hc => absurd hc (by decide), fun hb => absurd h1 hb.1⟩
    · exact ⟨fun _ => ⟨h1, h2⟩, fun _ => rfl⟩
    · exact ⟨fun hc => absurd hc (by decide), fun hb => absurd hb.2 h2⟩
  have hl : ∀ b : ℚ, context_quality b = lit "low" ↔ ¬ b < 3/5 ∧ ¬ b < 1 := by
    intro b
    unfold context_quality
    split_ifs with h1 h2
    · exact ⟨fun hc => absurd hc (by decide), fun hb => absurd h1 hb.1⟩
    · exact ⟨fun hc => absurd hc (by decide), fun hb => absurd h2 hb.2⟩
    · exact ⟨fun _ => ⟨h1, h2⟩, fun _ => rfl⟩
  have hres : retrieve_context search maxLen query max_results = canonicalEmptyResult := by
    simp [retrieve_context, h, build_context, canonicalEmptyResult]
  refine ⟨hres, ?_, hq, hm, hl⟩
  rw [hres]
  show context_quality 1 = lit "low"
  rw [hl]
  norm_num

/-- C2, witness: over an empty index the pipeline yields nothing and the
canonical empty result with chat label "low" is produced. -/
theorem retrieve_context_empty_pipeline_witness :
    retrieve_context emptySearch 5000 (lit "test") 10 = canonicalEmptyResult ∧
    context_quality (retrieve_context emptySearch 5000 (lit "test") 10).best_distance
      = lit "low" :=
  ⟨(retrieve_context_empty_pipeline emptySearch 5000 (lit "test") 10 (by decide)).1,
   (retrieve_context_empty_pipeline emptySearch 5000 (lit "test") 10 (by decide)).2.1⟩

/-- C2, counterexample: the claim promises quality_label "none" whenever
the whole pipeline yields nothing, but the code's `chat` computes the
label "low" from the returned best_distance 1.0 (it produces "none" only
when `chat` itself raises). -/
theorem empty_pipeline_label_is_low_not_none :
    finalDocs emptySearch (lit "test") 10 = [] ∧
    context_quality (retrieve_context emptySearch 5000 (lit "test") 10).best_distance
      = lit "low" ∧
    lit "low" ≠ lit "none" := by
  refine ⟨by decide, ?_, by decide⟩
  with_unfolding_all decide

/-! ## C3 -/

theorem pyMin_choice (a b : ℚ) : pyMin a b = a ∨ pyMin a b = b := by
  unfold pyMin
  split
  · exact Or.inl rfl
  · exact Or.inr rfl

theorem listMin_mem : ∀ {l : List ℚ}, l ≠ [] → listMin l ∈ l := by
  have key : ∀ (xs : List ℚ) (x : ℚ), xs.foldl pyMin x = x ∨ xs.foldl pyMin x ∈ xs := by
    intro xs
    induction xs with
    | nil => intro x; exact Or.inl rfl
    | cons y ys ih =>
      intro x
      rcases ih (pyMin x y) with h | h
      · rcases pyMin_choice x y with hm | hm
        · exact Or.inl (by rw [List.foldl_cons, h, hm])
        · exact Or.inr (by rw [List.foldl_cons, h, hm]; exact List.mem_cons_self _ _)
      · exact Or.inr (List.mem_cons_of_mem _ h)
  intro l hl
  match l with
  | x :: xs =>
    rcases key xs x with h | h
    · rw [listMin, h]; exact List.mem_cons_self _ _
    · rw [listMin]; exact List.mem_cons_of_mem _ h

/-- C3, counterexample: for a strict round whose only result has distance
1.5, the computed threshold is 1.0, which is *below* the minimum distance
seen — the claimed invariant `threshold ≥ min distance` fails whenever the
minimum distance exceeds 1.0. -/
theorem roundThreshold_below_min :
    roundThreshold true [3/2] = 1 ∧
    ¬ (listMin [3/2] ≤ roundThreshold true [3/2]) := by
  constructor
  · with_unfolding_all decide
  · with_unfolding_all decide

/-- C3, amended: for every strict round on a non-empty result list, the
computed threshold equals `min(1.0, 2.0 × min distance)` and is always
≤ 1.0; when the distances are non-negative it is also ≥ the minimum
distance seen whenever that minimum is at most 1.0. -/
theorem roundThreshold_strict_spec (dists : List ℚ) (hne : dists ≠ []) :
    roundThreshold true dists = min 1 (listMin dists * 2) ∧
    roundThreshold true dists ≤ 1 ∧
    ((∀ d ∈ dists, 0 ≤ d) → listMin dists ≤ 1 →
      listMin dists ≤ roundThreshold true dists) := by
  have heq : roundThreshold true dists = min 1 (listMin dists * 2) := by
    simp [roundThreshold, hne, pyMin_eq_min]
  refine ⟨heq, by rw [heq]; exact min_le_left _ _, ?_⟩
  intro hnn hle
  have h0 : 0 ≤ listMin dists := hnn _ (listMin_mem hne)
  rw [heq]
  exact le_min hle (by linarith)

/-- C3, witness: a strict round with result distances `[0.5]`. -/
theorem roundThreshold_strict_spec_witness :
    roundThreshold true [1/2] = min 1 (listMin [1/2] * 2) ∧
    roundThreshold true [1/2] ≤ 1 ∧
    listMin [1/2] ≤ roundThreshold true [1/2] :=
  ⟨(roundThreshold_strict_spec [1/2] (by decide)).1,
   (roundThreshold_strict_spec [1/2] (by decide)).2.1,
   (roundThreshold_strict_spec [1/2] (by decide)).2.2 (by norm_num)
     (by with_unfolding_all decide)⟩

/-! ## C4 -/

/-- Association-list metadata with a single `source` entry. -/
def mdOf (s : String) : List (Str × Str) := [(lit "source", lit s)]

/-- A search collaborator returning one whitespace-only document and one
real document, both well within every threshold. -/
def wsSearch : Search := fun _ _ =>
  .ok ⟨[lit "   ", lit "hello"], [mdOf "a.txt", mdOf "b.txt"], [3/10, 2/5]⟩

/-- C4, counterexample: the whitespace-only document is ranked in and
handed to the assembler, which skips it, so only one document is folded
into the context; yet `num_docs` reports 2 — the number of hits handed to
the assembler, not the number folded in. -/
theorem num_docs_counts_unfolded :
    (retrieve_context wsSearch 5000 (lit "zz") 10).num_docs = 2 ∧
    (buildParts 5000 (finalDocs wsSearch (lit "zz") 10)).1.length = 1 ∧
    (2 : Nat) ≠ 1 := by
  with_unfolding_all decide

/-- C4, amended: `doc_count` equals the number of hits handed to the
assembler (the ranked or fallback list), which is an upper bound for —
but need not equal — the number of hits actually folded into the
context. -/
theorem num_docs_eq_final_docs (search : Search) (maxLen : Nat) (query : Str)
    (max_results : Nat) :
    (retrieve_context search maxLen query max_results).num_docs
      = (finalDocs search query max_results).length ∧
    (buildParts maxLen (finalDocs search query max_results)).1.length
      ≤ (finalDocs search query max_results).length := by
  refine ⟨by simp only [retrieve_context], ?_⟩
  have h := buildLoop_spec maxLen (finalDocs search query max_results) 0 [] []
    (by simp [sumLens]) (by simp) (by simp)
  simpa [buildParts] using h.2.1

/-! ## Ranker lemmas (C5, C7) -/

theorem dedup_foldl_eq :
    ∀ (docs : List SearchHit) (acc : List SearchHit) (seen : List Str),
      (docs.foldl dedupStep (acc, seen)).1 = acc ++ dedupByKeySpec docs seen
  | [], acc, seen => by simp [dedupByKeySpec]
  | d :: rest, acc, seen => by
    by_cases h : key200 d ∈ seen
    · rw [List.foldl_cons]
      have hstep : dedupStep (acc, seen) d = (acc, seen) := by simp [dedupStep, h]
      rw [hstep, dedup_foldl_eq rest acc seen]
      simp [dedupByKeySpec, h]
    · rw [List.foldl_cons]
      have hstep : dedupStep (acc, seen) d = (acc ++ [d], seen ++ [key200 d]) := by
        simp [dedupStep, h]
      rw [hstep, dedup_foldl_eq rest (acc ++ [d]) (seen ++ [key200 d])]
      simp [dedupByKeySpec, h]

theorem dedup200_eq_spec (docs : List SearchHit) :
    dedup200 docs = dedupByKeySpec docs [] := by
  have := dedup_foldl_eq docs [] []
  simpa [dedup200] using this

theorem dedupByKeySpec_keys :
    ∀ (docs : List SearchHit) (seen : List Str),
      ((dedupByKeySpec docs seen).map key200).Nodup ∧
      ∀ k ∈ (dedupByKeySpec docs seen).map key200, k ∉ seen
  | [], seen => by simp [dedupByKeySpec]
  | d :: rest, seen => by
    unfold dedupByKeySpec
    split
    · exact dedupByKeySpec_keys rest seen
    · rename_i h
      have ih := dedupByKeySpec_keys rest (seen ++ [key200 d])
      simp only [List.map_cons, List.nodup_cons]
      refine ⟨⟨?_, ih.1⟩, ?_⟩
      · intro hmem
        have := ih.2 _ hmem
        simp at this
      · intro k hk
        simp only [List.mem_cons] at hk
        rcases hk with rfl | hk
        · exact h
        · have h2 := ih.2 _ hk
          intro hc
          exact h2 (by simp [hc])

theorem dedupByKeySpec_of_nodup :
    ∀ (docs : List SearchHit) (seen : List Str),
      (docs.map key200).Nodup → (∀ k ∈ docs.map key200, k ∉ seen) →
      dedupByKeySpec docs seen = docs
  | [], _, _, _ => rfl
  | d :: rest, seen, hnd, hns => by
    have hd : key200 d ∉ seen := hns _ (by simp)
    rw [List.map_cons, List.nodup_cons] at hnd
    unfold dedupByKeySpec
    rw [if_neg hd]
    congr 1
    refine dedupByKeySpec_of_nodup rest (seen ++ [key200 d]) hnd.2 ?_
    intro k hk
    have h1 : k ∉ seen := hns _ (by simp [hk])
    have h2 : k ≠ key200 d := fun hc => hnd.1 (hc ▸ hk)
    simp [h1, h2]

theorem dedup200_keys_nodup (docs : List SearchHit) :
    ((dedup200 docs).map key200).Nodup := by
  rw [dedup200_eq_spec]
  exact (dedupByKeySpec_keys docs []).1

theorem dedup200_of_nodup {docs : List SearchHit} (h : (docs.map key200).Nodup) :
    dedup200 docs = docs := by
  rw [dedup200_eq_spec]
  exact dedupByKeySpec_of_nodup docs [] h (by simp)

theorem sortByDistance_perm (l : List SearchHit) : List.Perm (sortByDistance l) l :=
  List.perm_insertionSort distLE l

theorem sortByDistance_sorted (l : List SearchHit) :
    List.Sorted distLE (sortByDistance l) :=
  List.sorted_insertionSort distLE l

theorem sortByDistance_of_sorted {l : List SearchHit} (h : List.Sorted distLE l) :
    sortByDistance l = l :=
  h.insertionSort_eq

theorem rank_eq_aux {docs : List SearchHit} {b : SearchHit} {t : List SearchHit}
    (hne : docs ≠ []) (hs : sortByDistance (dedup200 docs) = b :: t) :
    deduplicate_and_rank docs =
      (if ((b :: t).filter
            (fun d => decide (d.distance ≤ qualityThreshold b.distance))).length < 2
          ∧ 2 ≤ (b :: t).length
       then (b :: t).take 5
       else (b :: t).filter
            (fun d => decide (d.distance ≤ qualityThreshold b.distance))).take 8 := by
  simp only [deduplicate_and_rank, if_neg hne, hs]

theorem rank_sub_sorted (docs : List SearchHit) :
    List.Sublist (deduplicate_and_rank docs) (sortByDistance (dedup200 docs)) := by
  by_cases hne2 : docs = []
  · subst hne2
    simp [deduplicate_and_rank]
  rcases hs : sortByDistance (dedup200 docs) with _ | ⟨b, t⟩
  · simp only [deduplicate_and_rank, if_neg hne2, hs]
    simp
  · rw [rank_eq_aux hne2 hs]
    split
    · exact (List.take_sublist _ _).trans (List.take_sublist _ _)
    · exact (List.take_sublist _ _).trans (List.filter_sublist _)

/-- When the ranker returns anything at all, its first element is the
head of the sorted deduplicated list (the best-distance hit). -/
theorem rank_head {docs : List SearchHit} {b : SearchHit} {t : List SearchHit}
    (hne : docs ≠ []) (hs : sortByDistance (dedup200 docs) = b :: t)
    (hout : deduplicate_and_rank docs ≠ []) :
    ∃ t2, deduplicate_and_rank docs = b :: t2 := by
  have hsorted : List.Sorted distLE (b :: t) := by
    rw [← hs]
    exact sortByDistance_sorted _
  rw [rank_eq_aux hne hs] at hout ⊢
  set p : SearchHit → Bool :=
    fun d => decide (d.distance ≤ qualityThreshold b.distance) with hp
  by_cases hpb : p b = true
  · rw [List.filter_cons_of_pos hpb] at hout ⊢
    split
    · exact ⟨_, rfl⟩
    · exact ⟨_, rfl⟩
  · have hfail : ∀ d ∈ t, ¬ p d = true := by
      intro d hd
      have hbd : distLE b d := List.rel_of_sorted_cons hsorted d hd
      simp only [hp, decide_eq_true_eq] at hpb ⊢
      intro hdq
      exact hpb (le_trans hbd hdq)
    have hfilter : (b :: t).filter p = [] := by
      rw [List.filter_cons_of_neg (by simpa using hpb)]
      exact List.filter_eq_nil_iff.mpr hfail
    rw [hfilter] at hout ⊢
    by_cases hlen : 2 ≤ (b :: t).length
    · rw [if_pos ⟨by simp, hlen⟩]
      exact ⟨_, rfl⟩
    · rw [if_neg (fun hc => hlen hc.2)] at hout
      simp at hout

/-! ## C5 -/

/-- C5: on every non-empty input, `_deduplicate_and_rank` coincides with
the spec-side ranker (dedup by first-200-char key keeping first
occurrences, stable ascending sort by distance, adaptive-threshold
admission with the top-5 leniency escape, cap at 8); the output has at
most 8 hits and is sorted ascending by distance. -/
theorem deduplicate_and_rank_spec (docs : List SearchHit) (hne : docs ≠ []) :
    deduplicate_and_rank docs = rank_spec docs ∧
    (deduplicate_and_rank docs).length ≤ 8 ∧
    List.Sorted distLE (deduplicate_and_rank docs) := by
  refine ⟨?_, ?_, ?_⟩
  · simp only [deduplicate_and_rank, rank_spec, if_neg hne, dedup200_eq_spec]
  · rcases hs : sortByDistance (dedup200 docs) with _ | ⟨b, t⟩
    · simp only [deduplicate_and_rank, if_neg hne, hs]
      simp
    · rw [rank_eq_aux hne hs]
      exact List.length_take_le _ _
  · exact List.Pairwise.sublist (rank_sub_sorted docs) (sortByDistance_sorted _)

/-- A single concrete hit for the C5 witness. -/
def c5hit : SearchHit := ⟨lit "doc", [(lit "source", lit "s.txt")], 1/4, lit "q"⟩

/-- C5, witness at a concrete non-empty input. -/
theorem deduplicate_and_rank_spec_witness :
    deduplicate_and_rank [c5hit] = rank_spec [c5hit] ∧
    (deduplicate_and_rank [c5hit]).length ≤ 8 ∧
    List.Sorted distLE (deduplicate_and_rank [c5hit]) :=
  deduplicate_and_rank_spec [c5hit] (List.cons_ne_nil _ _)

/-! ## C7 -/

/-- C7: the ranker is idempotent — its output (deduplicated by content
key, sorted, thresholded, capped) passes through unchanged when ranked
again. -/
theorem deduplicate_and_rank_idempotent (docs : List SearchHit) :
    deduplicate_and_rank (deduplicate_and_rank docs) = deduplicate_and_rank docs := by
  by_cases hout : deduplicate_and_rank docs = []
  · rw [hout]
    simp [deduplicate_and_rank]
  have hne : docs ≠ [] := by
    intro h
    exact hout (by rw [h]; simp [deduplicate_and_rank])
  obtain ⟨b, t, hs⟩ : ∃ b t, sortByDistance (dedup200 docs) = b :: t := by
    rcases hsm : sortByDistance (dedup200 docs) with _ | ⟨b, t⟩
    · exfalso
      apply hout
      have hsub := rank_sub_sorted docs
      rw [hsm] at hsub
      exact List.sublist_nil.mp hsub
    · exact ⟨b, t, rfl⟩
  have hsub : List.Sublist (deduplicate_and_rank docs) (b :: t) := by
    have := rank_sub_sorted docs
    rwa [hs] at this
  have hkeys : ((deduplicate_and_rank docs).map key200).Nodup := by
    have h1 : ((sortByDistance (dedup200 docs)).map key200).Nodup :=
      ((sortByDistance_perm (dedup200 docs)).map key200).nodup_iff.mpr
        (dedup200_keys_nodup docs)
    rw [hs] at h1
    exact List.Nodup.sublist (hsub.map key200) h1
  have hsorted_out : List.Sorted distLE (deduplicate_and_rank docs) :=
    List.Pairwise.sublist (rank_sub_sorted docs) (sortByDistance_sorted _)
  obtain ⟨t2, hhead⟩ := rank_head hne hs hout
  have hs2 : sortByDistance (dedup200 (deduplicate_and_rank docs)) = b :: t2 := by
    rw [dedup200_of_nodup hkeys, sortByDistance_of_sorted hsorted_out]
    exact hhead
  rw [rank_eq_aux hout hs2, ← hhead]
  rw [rank_eq_aux hne hs] at hhead hout ⊢
  set p : SearchHit → Bool :=
    fun d => decide (d.distance ≤ qualityThreshold b.distance) with hp
  by_cases hfb : ((b :: t).filter p).length < 2 ∧ 2 ≤ (b :: t).length
  · -- first pass took the top-5 fallback
    rw [if_pos hfb] at hhead hout ⊢
    have htk : List.take 8 (List.take 5 (b :: t)) = List.take 5 (b :: t) := by
      simp [List.take_take]
    have hE5 : (List.take 8 (List.take 5 (b :: t))).length ≤ 5 := by
      rw [htk, List.length_take]
      exact Nat.min_le_left _ _
    have hq2 : ((List.take 8 (List.take 5 (b :: t))).filter p).length < 2 := by
      have hsubf : List.Sublist ((List.take 8 (List.take 5 (b :: t))).filter p)
          ((b :: t).filter p) :=
        List.Sublist.filter p ((List.take_sublist _ _).trans (List.take_sublist _ _))
      have h1 := hsubf.length_le
      have h2 := hfb.1
      omega
    have hlen2 : 2 ≤ (List.take 8 (List.take 5 (b :: t))).length := by
      rw [htk, List.length_take]
      have h2 := hfb.2
      omega
    rw [if_pos ⟨hq2, hlen2⟩]
    rw [List.take_of_length_le hE5, List.take_of_length_le (hE5.trans (by norm_num))]
  · -- first pass used the quality filter
    rw [if_neg hfb] at hhead hout ⊢
    have hmem : ∀ d ∈ List.take 8 ((b :: t).filter p), p d = true := by
      intro d hd
      exact List.of_mem_filter (List.mem_of_mem_take hd)
    have hfself : (List.take 8 ((b :: t).filter p)).filter p
        = List.take 8 ((b :: t).filter p) :=
      List.filter_eq_self.mpr hmem
    rw [hfself]
    have hle8 : (List.take 8 ((b :: t).filter p)).length ≤ 8 := List.length_take_le _ _
    rw [if_neg ?impossible]
    case impossible =>
      rintro ⟨h1, h2⟩
      omega
    exact List.take_of_length_le hle8

/-! ## C6 -/

theorem dropWhile_dropWhile (p : Char → Bool) (l : Str) :
    (l.dropWhile p).dropWhile p = l.dropWhile p := by
  induction l with
  | nil => rfl
  | cons c l ih =>
    rw [List.dropWhile_cons]
    split
    · exact ih
    · rename_i h
      rw [List.dropWhile_cons, if_neg h]

theorem dropWhile_eq_self_of_prefix {p : Char → Bool} {x y : Str}
    (hpre : List.IsPrefix x y) (hy : y.dropWhile p = y) : x.dropWhile p = x := by
  rcases x with _ | ⟨c, t⟩
  · rfl
  obtain ⟨r, hr⟩ := hpre
  rw [← hr, List.cons_append, List.dropWhile_cons] at hy
  rw [List.dropWhile_cons]
  split
  · rename_i h
    rw [if_pos h] at hy
    exfalso
    have hlen := (List.dropWhile_sublist (l := t ++ r) p).length_le
    have : (t ++ r).length + 1 = ((t ++ r).dropWhile p).length := by
      rw [hy]
      simp
    omega
  · rfl

theorem pyStrip_idem (s : Str) : pyStrip (pyStrip s) = pyStrip s := by
  have ht : (s.dropWhile pyIsSpace).dropWhile pyIsSpace = s.dropWhile pyIsSpace :=
    dropWhile_dropWhile _ _
  have hpre : List.IsPrefix (((s.dropWhile pyIsSpace).reverse.dropWhile pyIsSpace).reverse)
      (s.dropWhile pyIsSpace) := by
    have h1 := List.dropWhile_suffix (l := (s.dropWhile pyIsSpace).reverse) pyIsSpace
    have h2 := List.reverse_prefix.mpr h1
    rwa [List.reverse_reverse] at h2
  have hu : (((s.dropWhile pyIsSpace).reverse.dropWhile pyIsSpace).reverse).dropWhile pyIsSpace
      = ((s.dropWhile pyIsSpace).reverse.dropWhile pyIsSpace).reverse :=
    dropWhile_eq_self_of_prefix hpre ht
  show ((((pyStrip s).dropWhile pyIsSpace).reverse).dropWhile pyIsSpace).reverse = pyStrip s
  rw [show pyStrip s = ((s.dropWhile pyIsSpace).reverse.dropWhile pyIsSpace).reverse from rfl]
  rw [hu, List.reverse_reverse, dropWhile_dropWhile]

theorem dedupQueriesStep_pos {acc seen : List Str} {q : Str}
    (h : pyStrip q ≠ [] ∧ ¬ pyLower q ∈ seen ∧ (pyStrip q).length > 1) :
    dedupQueriesStep (acc, seen) q = (acc ++ [pyStrip q], seen ++ [pyLower q]) := by
  show (if pyStrip q ≠ [] ∧ ¬ pyLower q ∈ seen ∧ (pyStrip q).length > 1 then
      (acc ++ [pyStrip q], seen ++ [pyLower q]) else (acc, seen)) = _
  rw [if_pos h]

theorem dedupQueriesStep_neg {acc seen : List Str} {q : Str}
    (h : ¬ (pyStrip q ≠ [] ∧ ¬ pyLower q ∈ seen ∧ (pyStrip q).length > 1)) :
    dedupQueriesStep (acc, seen) q = (acc, seen) := by
  show (if pyStrip q ≠ [] ∧ ¬ pyLower q ∈ seen ∧ (pyStrip q).length > 1 then
      (acc ++ [pyStrip q], seen ++ [pyLower q]) else (acc, seen)) = _
  rw [if_neg h]

theorem dedupQueries_foldl_append :
    ∀ (qs : List Str) (acc seen : List Str),
      ∃ tail, (qs.foldl dedupQueriesStep (acc, seen)).1 = acc ++ tail
  | [], acc, _ => ⟨[], by simp⟩
  | q :: rest, acc, seen => by
    rw [List.foldl_cons]
    by_cases h : pyStrip q ≠ [] ∧ ¬ pyLower q ∈ seen ∧ (pyStrip q).length > 1
    · rw [dedupQueriesStep_pos h]
      obtain ⟨tail, ht⟩ :=
        dedupQueries_foldl_append rest (acc ++ [pyStrip q]) (seen ++ [pyLower q])
      exact ⟨[pyStrip q] ++ tail, by rw [ht, List.append_assoc]⟩
    · rw [dedupQueriesStep_neg h]
      exact dedupQueries_foldl_append rest acc seen

theorem dedupQueries_foldl_mem :
    ∀ (qs : List Str) (acc seen : List Str),
      (∀ v ∈ acc, pyStrip v = v ∧ v.length > 1) →
      ∀ v ∈ (qs.foldl dedupQueriesStep (acc, seen)).1, pyStrip v = v ∧ v.length > 1
  | [], _, _, hacc => hacc
  | q :: rest, acc, seen, hacc => by
    rw [List.foldl_cons]
    by_cases h : pyStrip q ≠ [] ∧ ¬ pyLower q ∈ seen ∧ (pyStrip q).length > 1
    · rw [dedupQueriesStep_pos h]
      refine dedupQueries_foldl_mem rest _ _ ?_
      intro v hv
      rcases List.mem_append.mp hv with hv | hv
      · exact hacc v hv
      · have hv2 : v = pyStrip q := by simpa using hv
        subst hv2
        exact ⟨pyStrip_idem q, h.2.2⟩
    · rw [dedupQueriesStep_neg h]
      exact dedupQueries_foldl_mem rest acc seen hacc

theorem dedupQueries_foldl_nodup :
    ∀ (qs : List Str) (acc seen : List Str),
      seen.Nodup → (qs.foldl dedupQueriesStep (acc, seen)).2.Nodup
  | [], _, _, hseen => hseen
  | q :: rest, acc, seen, hseen => by
    rw [List.foldl_cons]
    by_cases h : pyStrip q ≠ [] ∧ ¬ pyLower q ∈ seen ∧ (pyStrip q).length > 1
    · rw [dedupQueriesStep_pos h]
      refine dedupQueries_foldl_nodup rest _ _ ?_
      simp [List.nodup_append, hseen, h.2.1]
    · rw [dedupQueriesStep_neg h]
      exact dedupQueries_foldl_nodup rest acc seen hseen

/-- The query of the C6 counterexample: `dogs 's`. -/
def dogsQuery : Str := lit "dogs " ++ apostropheS

/-- C6, counterexample: the dedup key is the *untrimmed* lowercased
variant while the *trimmed* variant is returned, so the possessive
variant `"dogs "` (whose trailing space comes from stripping `'s`) and
the structural variant `"dogs"` both survive: the returned sequence
contains `"dogs"` twice, violating case-insensitive distinctness; and for
the query `"a"` (trimmed length ≤ 1) the returned sequence is empty, so
the original query is not its first element. -/
theorem expand_variants_collide :
    generate_comprehensive_queries dogsQuery =
      [lit "dogs " ++ apostropheS, lit "dog " ++ apostropheS, lit "dogs",
       apostropheS ++ lit " dogs", lit "dogs"] ∧
    ¬ (generate_comprehensive_queries dogsQuery).Nodup ∧
    generate_comprehensive_queries (lit "a") = [] := by
  refine ⟨?_, ?_, ?_⟩ <;> with_unfolding_all decide

/-- C6, amended: `expand` returns at most 12 variants; every returned
variant is already trimmed and has length > 1 (hence length > 1 after
trimming); whenever the trimmed original query has length > 1 it is the
first returned variant (otherwise it is filtered out and the result can
even be empty); and the dedup keys — the untrimmed lowercased variants —
are pairwise distinct, though the trimmed variants returned may collide
case-insensitively when a generated variant carries surrounding
whitespace. -/
theorem generate_comprehensive_queries_spec (query : Str) :
    (generate_comprehensive_queries query).length ≤ 12 ∧
    (∀ v ∈ generate_comprehensive_queries query, pyStrip v = v ∧ v.length > 1) ∧
    ((pyStrip query).length > 1 →
      ∃ rest, generate_comprehensive_queries query = pyStrip query :: rest) ∧
    (comprehensiveState query).2.Nodup := by
  refine ⟨List.length_take_le _ _, ?_, ?_, ?_⟩
  · intro v hv
    have hv2 := List.mem_of_mem_take hv
    exact dedupQueries_foldl_mem _ [] [] (by simp) v hv2
  · intro h
    have hne : pyStrip (pyStrip query) ≠ [] := by
      rw [pyStrip_idem]
      intro hc
      rw [hc] at h
      simp at h
    have hcond : pyStrip (pyStrip query) ≠ [] ∧
        ¬ pyLower (pyStrip query) ∈ ([] : List Str) ∧
        (pyStrip (pyStrip query)).length > 1 := by
      refine ⟨hne, by simp, ?_⟩
      rw [pyStrip_idem]
      exact h
    have hstep : dedupQueriesStep ([], []) (pyStrip query)
        = ([pyStrip (pyStrip query)], [pyLower (pyStrip query)]) := by
      rw [dedupQueriesStep_pos hcond]
      simp
    obtain ⟨tail, ht⟩ := dedupQueries_foldl_append
      (generate_linguistic_variations query
        ++ generate_semantic_expansions (pyStrip (pyLower query))
        ++ generate_contextual_variations (pyStrip (pyLower query))
        ++ generate_structural_variations query)
      [pyStrip (pyStrip query)] [pyLower (pyStrip query)]
    have hstate : (comprehensiveState query).1 = pyStrip query :: tail := by
      unfold comprehensiveState
      simp only [List.cons_append, List.nil_append, List.append_assoc, List.foldl_cons]
      rw [hstep]
      simp only [List.append_assoc] at ht
      rw [ht, pyStrip_idem]
      rfl
    refine ⟨tail.take 11, ?_⟩
    unfold generate_comprehensive_queries
    rw [hstate]
    rfl
  · exact dedupQueries_foldl_nodup _ [] [] (by simp)

/-- C6, witness: for the two-character query `"ab"` the amended claim
applies with its hypothesis satisfied. -/
theorem generate_comprehensive_queries_spec_witness :
    (generate_comprehensive_queries (lit "ab")).length ≤ 12 ∧
    (∃ rest, generate_comprehensive_queries (lit "ab") = pyStrip (lit "ab") :: rest) :=
  ⟨(generate_comprehensive_queries_spec (lit "ab")).1,
   (generate_comprehensive_queries_spec (lit "ab")).2.2.1 (by decide)⟩

/-! ## C8 -/

/-- `execRoundQuery` reads only the `n_results` and `strict` fields of the
round configuration, never its query list. -/
theorem execRoundQuery_cfg (search : Search) (qs qs2 : List Str) (n : Nat) (st : Bool) :
    execRoundQuery search ⟨qs, n, st⟩ = execRoundQuery search ⟨qs2, n, st⟩ := rfl

/-- C8: if the external search raises for one query variant of a round,
that variant contributes no hits and the round's result — including the
shared intra-round dedup state threaded through the remaining (sibling)
queries — is exactly the result of the round without that variant; the
failure is absorbed inside the round and never escapes it. -/
theorem execute_search_round_error_isolated (search : Search) (qbad : Str)
    (qs1 qs2 : List Str) (n : Nat) (strict : Bool)
    (herr : search qbad n = .error ()) :
    execute_search_round search ⟨qs1 ++ qbad :: qs2, n, strict⟩
      = execute_search_round search ⟨qs1 ++ qs2, n, strict⟩ := by
  unfold execute_search_round
  rw [execRoundQuery_cfg search (qs1 ++ qbad :: qs2) (qs1 ++ qs2) n strict]
  rw [List.foldl_append, List.foldl_append, List.foldl_cons]
  have hstep : ∀ A : List SearchHit × List Str,
      execRoundQuery search ⟨qs1 ++ qs2, n, strict⟩ A qbad = A := by
    intro A
    simp only [execRoundQuery, herr]
  rw [hstep]

/-- A search collaborator that raises exactly on the query `"bad"`. -/
def failSearch : Search := fun q _ =>
  if q = lit "bad" then .error () else .ok ⟨[lit "dd"], [mdOf "s.txt"], [1/2]⟩

/-- C8, witness: a concrete round where the middle query raises. -/
theorem execute_search_round_error_isolated_witness :
    execute_search_round failSearch ⟨[lit "x"] ++ lit "bad" :: [lit "y"], 10, false⟩
      = execute_search_round failSearch ⟨[lit "x"] ++ [lit "y"], 10, false⟩ :=
  execute_search_round_error_isolated failSearch (lit "bad") [lit "x"] [lit "y"] 10 false
    (by with_unfolding_all rfl)

/-! ## C9 -/

/-- Nine documents as the index returns them: a duplicated content, and
distances out of ascending order, all above every acceptance threshold. -/
def docs9 : List Str :=
  [lit "d0", lit "d0", lit "d2", lit "d3", lit "d4", lit "d5", lit "d6",
   lit "d7", lit "d8"]

/-- A search collaborator whose nine hits all have distance ≥ 3, so that
every round rejects them and only the unfiltered fallback accepts. -/
def search9 : Search := fun _ _ =>
  .ok ⟨docs9,
       [mdOf "s0", mdOf "s1", mdOf "s2", mdOf "s3", mdOf "s4", mdOf "s5",
        mdOf "s6", mdOf "s7", mdOf "s8"],
       [3, 4, 3, 5, 3, 3, 3, 3, 3]⟩

set_option maxRecDepth 40000 in
/-- C9: when the ranked merge is empty the fallback's hits are handed to
the assembler unranked: the result carries 9 > 8 documents, in exactly the
order the index returned (not re-sorted: distances 3,4,3,5,… stay put),
with both copies of a duplicated content key retained. -/
theorem fallback_bypasses_ranker :
    deduplicate_and_rank (allDocs search9 (lit "qq") 10) = [] ∧
    (retrieve_context search9 5000 (lit "qq") 10).num_docs = 9 ∧
    8 < (retrieve_context search9 5000 (lit "qq") 10).num_docs ∧
    (finalDocs search9 (lit "qq") 10).map SearchHit.content = docs9 ∧
    ¬ ((finalDocs search9 (lit "qq") 10).map key200).Nodup ∧
    sortByDistance (finalDocs search9 (lit "qq") 10) ≠ finalDocs search9 (lit "qq") 10 := by
  refine ⟨?_, ?_, ?_, ?_, ?_, ?_⟩ <;> with_unfolding_all decide

/-! ## C10 -/

/-- Invariant relating the assembler loop to the spec-side list of
fully-included documents: the sources accumulator collects exactly the
deduplicated sources of the documents folded in whole. -/
theorem buildLoop_sources (maxLen : Nat) :
    ∀ (docs : List SearchHit) (total : Nat) (parts sources : List Str),
      (buildLoop maxLen docs total parts sources).2
        = dedupAppend sources
            ((fullyIncluded maxLen docs total).map (fun d => getSource d.metadata))
  | [], _, _, _ => rfl
  | d :: rest, total, parts, sources => by
    simp only [buildLoop, fullyIncluded]
    split
    · exact buildLoop_sources maxLen rest total parts sources
    · split
      · rw [buildLoop_sources maxLen rest _ _ _]
        rfl
      · split
        · rfl
        · rfl

/-- The full document whose whole content enters the context. -/
def bigDocA : SearchHit :=
  ⟨List.replicate 100 'x', [(lit "source", lit "a.txt")], 1/2, lit "q"⟩

/-- The oversized document that gets truncated. -/
def bigDocB : SearchHit :=
  ⟨List.replicate 200 'y', [(lit "source", lit "b.txt")], 1/2, lit "q"⟩

set_option maxRecDepth 40000 in
/-- C10: the sources list of the assembler records exactly the
(deduplicated, insertion-ordered) sources of the documents included in
full; a document that is truncated to fill the remaining budget
contributes its tail text to the context (ending in the ellipsis marker)
but never its source — concretely, with budget 250 a 100-character
document followed by a 200-character one yields two context entries but
only the first document's source. -/
theorem build_context_sources_only_full :
    (∀ (maxLen : Nat) (docs : List SearchHit),
      (build_context maxLen docs).2
        = dedupAppend []
            ((fullyIncluded maxLen docs 0).map (fun d => getSource d.metadata))) ∧
    (build_context 250 [bigDocA, bigDocB]).2 = [lit "a.txt"] ∧
    (buildParts 250 [bigDocA, bigDocB]).1.length = 2 ∧
    ¬ lit "b.txt" ∈ (build_context 250 [bigDocA, bigDocB]).2 ∧
    List.IsSuffix (lit "...") (build_context 250 [bigDocA, bigDocB]).1 := by
  refine ⟨?_, ?_, ?_, ?_, ?_⟩
  · intro maxLen docs
    unfold build_context
    split
    · rename_i h
      subst h
      rfl
    · exact buildLoop_sources maxLen docs 0 [] []
  · with_unfolding_all decide
  · with_unfolding_all decide
  · with_unfolding_all decide
  · with_unfolding_all decide

end Rag
